import Mathlib

/-!
Shallow embedding of `pya/esig.py` (editable audio signals).

The numeric state is modelled over `ℝ`.  The two external numeric
collaborators — the pitch estimator (`pYAAPT.yaapt`) and the time-scale /
pitch modification routine (`tsm.tdpsola`) — are opaque to this module and
are modelled as parameters bundled in an `Externals` record.  Everything
else (`_guess_events`, `Cache`, `Esig`, `PitchChange`) is translated from
the source.  Errors raised via `raise ValueError("Invalid algorithm")` are
modelled with `Except String`.
-/

noncomputable section

/-- `np.mean` on a list of reals. -/
def mean (l : List ℝ) : ℝ := l.sum / l.length

/-- `librosa.hz_to_midi`: `12 * log2(f / 440) + 69`. -/
def hz_to_midi (f : ℝ) : ℝ := 12 * Real.logb 2 (f / 440) + 69

/-- `librosa.midi_to_hz`: `440 * 2 ** ((m - 69) / 12)`. -/
def midi_to_hz (m : ℝ) : ℝ := 440 * (2 : ℝ) ^ ((m - 69) / 12)

/-- Index reflection used by `scipy.ndimage` boundary mode `reflect`
(`(d c b a | a b c d | d c b a)`), total via the `2 n`-periodic pattern. -/
def reflectIdx (n : ℕ) (j : ℤ) : ℕ :=
  if n = 0 then 0
  else
    let m := (j % (2 * (n : ℤ))).toNat
    if m < n then m else 2 * n - 1 - m

/-- The unnormalised Gaussian kernel weight `exp(-x^2 / (2 sigma^2))` at
offset `k - lw`. -/
def gaussWeight (sigma : ℝ) (lw k : ℕ) : ℝ :=
  Real.exp (-(((k : ℝ) - (lw : ℝ)) ^ 2) / (2 * sigma ^ 2))

/-- Kernel radius used by `scipy.ndimage.gaussian_filter1d` with the
default `truncate=4.0`: `lw = int(4 * sigma + 0.5)`. -/
def gaussRadius (sigma : ℝ) : ℕ := (Int.floor (4 * sigma + 1 / 2)).toNat

/-- Normalisation constant of the Gaussian kernel: the sum of the raw
weights over offsets `-lw .. lw` (indexed `0 .. 2*lw`). -/
def gaussKernelSum (sigma : ℝ) : ℝ :=
  ((List.range (2 * gaussRadius sigma + 1)).map fun k =>
    gaussWeight sigma (gaussRadius sigma) k).sum

/-- One output sample of the Gaussian filter: the normalised-kernel
correlation at position `j`, with `reflect` boundary handling. -/
def gaussSmoothAt (xs : List ℝ) (sigma : ℝ) (j : ℕ) : ℝ :=
  ((List.range (2 * gaussRadius sigma + 1)).map fun k =>
    gaussWeight sigma (gaussRadius sigma) k / gaussKernelSum sigma *
      xs.getD (reflectIdx xs.length ((j : ℤ) + (k : ℤ) - (gaussRadius sigma : ℤ))) 0).sum

/-- `scipy.ndimage.gaussian_filter1d(xs, sigma)` with the default
`order=0`, `mode='reflect'`, `truncate=4.0`. -/
def gaussian_filter1d (xs : List ℝ) (sigma : ℝ) : List ℝ :=
  (List.range xs.length).map (gaussSmoothAt xs sigma)

/-- `max_freq_deviation` computed in `Cache._guess_events` from the running
average `new_avg`: one semitone above the average, converted back to a
frequency delta, scaled by `max_vibrato_extent / 100`. -/
def max_freq_deviation (mve new_avg : ℝ) : ℝ :=
  (midi_to_hz (hz_to_midi new_avg + 1) - new_avg) * (mve / 100)

/-- First termination check of `Cache._guess_events`: some raw pitch of the
candidate deviates from the candidate average by more than
`max_freq_deviation`. -/
def raw_check (mve : ℝ) (new_pitches : List ℝ) : Prop :=
  ∃ p ∈ new_pitches, |p - mean new_pitches| > max_freq_deviation mve (mean new_pitches)

/-- Second termination check of `Cache._guess_events`: some
Gaussian-smoothed pitch of the candidate deviates from the candidate
average by more than `max_freq_deviation * max_vibrato_inaccuracy`. -/
def smooth_check (mve mvi : ℝ) (new_pitches : List ℝ) (sigma : ℝ) : Prop :=
  ∃ pg ∈ gaussian_filter1d new_pitches sigma,
    |pg - mean new_pitches| > max_freq_deviation mve (mean new_pitches) * mvi

open Classical in
/-- One iteration of the `for i, current_pitch in enumerate(pitch)` loop of
`Cache._guess_events`.  The loop state is `(ranges, start)`; `end` always
equals the current index `i` at check time.  The candidate slice
`pitch[start:end]` is `drop start` then `take (i - start)`. -/
def guess_step (mve mvi mel : ℝ) (pitch : List ℝ) (pitch_sr : ℝ)
    (st : List (ℕ × ℕ) × ℕ) (i : ℕ) : List (ℕ × ℕ) × ℕ :=
  let current := pitch.getD i 0
  let new_pitches := (pitch.drop st.2).take (i - st.2) ++ [current]
  let end_event : Bool :=
    if current = 0 then true
    else if raw_check mve new_pitches then true
    else if smooth_check mve mvi new_pitches (pitch_sr / (5 * 2)) then true
    else if i = pitch.length - 1 then true
    else false
  if end_event = true then
    (if (i : ℝ) - (st.2 : ℝ) > mel * pitch_sr then st.1 ++ [(st.2, i)] else st.1, i)
  else st

/-- A guessed event: a half-open sample range into the pitch contour. -/
structure Event where
  start : ℕ
  «end» : ℕ
  deriving DecidableEq

/-- `Cache._guess_events(pitch, pitch_sr)` with the three `Esig`
configuration thresholds passed explicitly: a single forward pass over the
contour collecting committed ranges, wrapped into `Event`s. -/
def guess_events (mve mvi mel : ℝ) (pitch : List ℝ) (pitch_sr : ℝ) : List Event :=
  (((List.range pitch.length).foldl (guess_step mve mvi mel pitch pitch_sr) ([], 0)).1).map
    fun r => ⟨r.1, r.2⟩

/-- The external signal container `pya.asig.Asig`: a sample buffer plus its
sample rate (modelled single-channel). -/
structure Asig where
  sig : List ℝ
  sr : ℝ

/-- The two external numeric collaborators, opaque to this module:
`estimate` is `pYAAPT.yaapt` (signal and sample rate to pitch contour, the
fixed frame constants are internal to it), `modify` is `tsm.tdpsola`
(signal, sample rate, source pitch, target pitch to new signal). -/
structure Externals where
  estimate : List ℝ → ℝ → List ℝ
  modify : List ℝ → ℝ → List ℝ → List ℝ → List ℝ

/-- A `PitchChange` edit.  The base-class fields (`start`, `end`,
`needs_pitch`) are inlined; the validating constructor is
`PitchChange.init`. -/
structure PitchChange where
  start : ℤ
  «end» : ℤ
  shift_factor : ℝ
  algorithm : String
  needs_pitch : Bool

/-- `PitchChange.__init__`: sets `needs_pitch = True` via the base class and
raises `ValueError("Invalid algorithm")` unless `algorithm` is `"tdpsola"`. -/
def PitchChange.init (start «end» : ℤ) (shift_factor : ℝ) (algorithm : String) :
    Except String PitchChange :=
  if algorithm = "tdpsola" then
    Except.ok ⟨start, «end», shift_factor, algorithm, true⟩
  else Except.error "Invalid algorithm"

/-- Python/numpy slice-bound normalisation for a list of length `n`:
negative indices count from the end, then the bound is clamped to `[0, n]`. -/
def normSlice (n : ℕ) (a : ℤ) : ℕ :=
  if a < 0 then ((n : ℤ) + a).toNat else min a.toNat n

/-- The target contour built inside `PitchChange.apply`:
`changed_pitch = np.copy(pitch); changed_pitch[start:end] *= shift_factor`. -/
def changed_pitch (pc : PitchChange) (pitch : List ℝ) : List ℝ :=
  (List.range pitch.length).map fun i =>
    if normSlice pitch.length pc.start ≤ i ∧ i < normSlice pitch.length pc.«end» then
      pitch.getD i 0 * pc.shift_factor
    else pitch.getD i 0

/-- `PitchChange.apply`: invokes `tsm.tdpsola` with the given contour as
source pitch and `changed_pitch` as target pitch, replacing the signal's
samples with the routine's output. -/
def PitchChange.apply (E : Externals) (pc : PitchChange) (asig : Asig) (pitch : List ℝ) :
    Except String Asig :=
  if pc.algorithm = "tdpsola" then
    Except.ok ⟨E.modify asig.sig asig.sr pitch (changed_pitch pc pitch), asig.sr⟩
  else Except.error "Invalid algorithm"

/-- The `Esig` configuration read by the `Cache` through its back pointer:
the pitch-estimation algorithm name and the three segmentation thresholds. -/
structure Cfg where
  algorithm : String
  max_vibrato_extent : ℝ
  max_vibrato_inaccuracy : ℝ
  min_event_length : ℝ

/-- The `Cache`: the working copy of the signal and the pitch contour,
pitch sampling rate and event list last derived from it. -/
structure Cache where
  asig : Asig
  pitch : List ℝ
  pitch_sr : ℝ
  events : List Event

/-- `Cache._guess_pitch_yaapt`: wraps the external estimator. -/
def Cache.guess_pitch_yaapt (E : Externals) (asig : Asig) : List ℝ :=
  E.estimate asig.sig asig.sr

/-- `Cache._recalculate`: guesses the pitch of the current signal (only
`"yaapt"` is recognised), derives the pitch sampling rate from the signal
duration, and segments the contour into events. -/
def Cache.recalculate (E : Externals) (cfg : Cfg) (asig : Asig) :
    Except String (List ℝ × ℝ × List Event) :=
  if cfg.algorithm = "yaapt" then
    let pitch := Cache.guess_pitch_yaapt E asig
    let length := (asig.sig.length : ℝ) / asig.sr
    let pitch_sr := (pitch.length : ℝ) / length
    Except.ok (pitch, pitch_sr,
      guess_events cfg.max_vibrato_extent cfg.max_vibrato_inaccuracy cfg.min_event_length
        pitch pitch_sr)
  else Except.error "Invalid algorithm"

/-- `Cache.__init__`: copies the signal and computes pitch and events. -/
def Cache.init (E : Externals) (cfg : Cfg) (asig : Asig) : Except String Cache := do
  let working : Asig := ⟨asig.sig, asig.sr⟩
  let (pitch, pitch_sr, events) ← Cache.recalculate E cfg working
  Except.ok ⟨working, pitch, pitch_sr, events⟩

/-- `Cache.apply(edit)`: if the edit needs pitch, first recompute pitch and
events from the current (pre-edit) working signal, then apply the edit to
the working signal with that contour. -/
def Cache.apply (E : Externals) (cfg : Cfg) (c : Cache) (edit : PitchChange) :
    Except String Cache := do
  let c ←
    if edit.needs_pitch then do
      let (pitch, pitch_sr, events) ← Cache.recalculate E cfg c.asig
      Except.ok { c with pitch := pitch, pitch_sr := pitch_sr, events := events }
    else Except.ok c
  let asig ← edit.apply E c.asig c.pitch
  Except.ok { c with asig := asig }

/-- `Cache.reapply()`: copies the cache's own current `asig` and `pitch`
(note: the current working signal, not the owning `Esig`'s original
signal), then applies every edit of the log in order. -/
def Cache.reapply (E : Externals) (cfg : Cfg) (edits : List PitchChange) (c : Cache) :
    Except String Cache := do
  let c := { c with asig := ⟨c.asig.sig, c.asig.sr⟩, pitch := c.pitch }
  edits.foldlM (fun acc e => Cache.apply E cfg acc e) c

/-- Modelled from the spec: the behaviour `Cache.reapply`'s own docstring
("applies all edits on top of the original asig") and the spec describe —
reset the working signal to a fresh copy of the *original* signal, then
replay every edit of the log in order. -/
def Cache.reapply_from_original (E : Externals) (cfg : Cfg) (original : Asig)
    (edits : List PitchChange) (c : Cache) : Except String Cache := do
  let c := { c with asig := ⟨original.sig, original.sr⟩, pitch := c.pitch }
  edits.foldlM (fun acc e => Cache.apply E cfg acc e) c

/-- `Cache.update()`: recompute pitch and events from the current working
signal without applying an edit. -/
def Cache.update (E : Externals) (cfg : Cfg) (c : Cache) : Except String Cache := do
  let (pitch, pitch_sr, events) ← Cache.recalculate E cfg c.asig
  Except.ok { c with pitch := pitch, pitch_sr := pitch_sr, events := events }

/-- The editable signal: original signal, configuration, append-only edit
log and cache. -/
structure Esig where
  asig : Asig
  algorithm : String
  max_vibrato_extent : ℝ
  max_vibrato_inaccuracy : ℝ
  min_event_length : ℝ
  edits : List PitchChange
  cache : Cache

/-- The configuration view of an `Esig` that its `Cache` reads. -/
def Esig.cfg (e : Esig) : Cfg :=
  ⟨e.algorithm, e.max_vibrato_extent, e.max_vibrato_inaccuracy, e.min_event_length⟩

/-- `Esig.__init__`: stores the configuration, an empty edit list, and
builds the cache (which estimates pitch and guesses events). -/
def Esig.init (E : Externals) (asig : Asig) (algorithm : String)
    (max_vibrato_extent max_vibrato_inaccuracy min_event_length : ℝ) :
    Except String Esig := do
  let cache ← Cache.init E
    ⟨algorithm, max_vibrato_extent, max_vibrato_inaccuracy, min_event_length⟩ asig
  Except.ok ⟨asig, algorithm, max_vibrato_extent, max_vibrato_inaccuracy, min_event_length,
    [], cache⟩

/-- `Esig.change_pitch`: constructs a `PitchChange` (validating only the
algorithm name), appends it to the edit log and immediately applies it via
the cache. -/
def Esig.change_pitch (E : Externals) (e : Esig) (start «end» : ℤ) (shift_factor : ℝ)
    (algorithm : String) : Except String Esig := do
  let pc ← PitchChange.init start «end» shift_factor algorithm
  let cache ← Cache.apply E e.cfg e.cache pc
  Except.ok { e with edits := e.edits ++ [pc], cache := cache }

/-- Mutual consistency of a cache's `(working signal, pitch, events)`
triple: recomputing from the current working signal reproduces exactly the
stored contour, pitch sampling rate and event list. -/
def consistent (E : Externals) (cfg : Cfg) (c : Cache) : Prop :=
  Cache.recalculate E cfg c.asig = Except.ok (c.pitch, c.pitch_sr, c.events)

/-! ### Concrete instantiations of the external collaborators

Used to evaluate the pipeline on explicit inputs: `Ezero` always estimates
an all-zero two-sample contour and its modifier adds 1 to every sample;
`Ehead` estimates a contour whose length depends on the signal's first
sample; `Etarget`'s modifier returns the target contour it was invoked
with, exposing the routine's arguments in the output signal. -/

def Ezero : Externals :=
  ⟨fun _ _ => [0, 0], fun sig _ _ _ => sig.map (· + 1)⟩

def Ehead : Externals :=
  ⟨fun sig _ => if sig.headD 0 = 0 then [0, 0] else [0, 0, 0],
   fun sig _ _ _ => sig.map (· + 1)⟩

def Etarget : Externals :=
  ⟨fun _ _ => [], fun _ _ _ tgt => tgt⟩

def cfg0 : Cfg := ⟨"yaapt", 40, 1 / 2, 2⟩

def asig0 : Asig := ⟨[0, 0], 1⟩

def cache0 : Cache := ⟨⟨[0, 0], 1⟩, [0, 0], 1, []⟩

def pc0 : PitchChange := ⟨0, 2, 2, "tdpsola", true⟩

def esig0 : Esig := ⟨⟨[0, 0], 1⟩, "yaapt", 40, 1 / 2, 2, [], cache0⟩

def cache1 : Cache := ⟨⟨[1, 1], 1⟩, [0, 0], 1, []⟩

def esig1 : Esig := ⟨⟨[0, 0], 1⟩, "yaapt", 40, 1 / 2, 2, [pc0], cache1⟩

def cache2 : Cache := ⟨⟨[2, 2], 1⟩, [0, 0], 1, []⟩

/-- The pitch contour of the octave-jump segmentation example. -/
def contourC3 : List ℝ := [220, 220, 220, 440, 440, 440]

/-- Invariant of the segmentation loop after processing the first `n`
indices: every committed range is well formed (`start ≤ end`), ends no
later than the current candidate start, and is strictly longer than
`min_event_length * pitch_sr`; the committed ranges are chained
(each ends no later than the next begins); and the candidate start is `0`
or at most `n - 1`. -/
def StateInv (mel sr : ℝ) (n : ℕ) (st : List (ℕ × ℕ) × ℕ) : Prop :=
  (∀ r ∈ st.1, r.1 ≤ r.2 ∧ r.2 ≤ st.2 ∧ (r.2 : ℝ) - (r.1 : ℝ) > mel * sr) ∧
  st.1.Pairwise (fun a b => a.2 ≤ b.1) ∧ (st.2 = 0 ∨ st.2 + 1 ≤ n)

end

/-! ### Basic numeric lemmas -/

theorem range_map_getD (l : List ℝ) :
    (List.range l.length).map (fun i => l.getD i 0) = l := by
  induction l with
  | nil => simp
  | cons a t ih =>
    simp only [List.length_cons, List.range_succ_eq_map, List.map_cons, List.map_map,
      Function.comp_def, List.getD_cons_zero, List.getD_cons_succ]
    rw [ih]

theorem reflectIdx_lt (n : ℕ) (j : ℤ) (hn : 0 < n) : reflectIdx n j < n := by
  unfold reflectIdx
  rw [if_neg (Nat.pos_iff_ne_zero.mp hn)]
  have h2 : (0 : ℤ) < 2 * (n : ℤ) := by positivity
  have h0 : 0 ≤ j % (2 * (n : ℤ)) := Int.emod_nonneg j (ne_of_gt h2)
  have hlt : j % (2 * (n : ℤ)) < 2 * (n : ℤ) := Int.emod_lt_of_pos j h2
  have hm : (j % (2 * (n : ℤ))).toNat < 2 * n := by omega
  dsimp only
  split
  · assumption
  · omega

theorem mean_replicate (n : ℕ) (c : ℝ) (hn : n ≠ 0) : mean (List.replicate n c) = c := by
  rw [mean, List.sum_replicate, List.length_replicate, nsmul_eq_mul]
  exact mul_div_cancel_left₀ c (Nat.cast_ne_zero.mpr hn)

theorem gaussKernelSum_pos (sigma : ℝ) : 0 < gaussKernelSum sigma := by
  apply List.sum_pos
  · intro x hx
    simp only [List.mem_map] at hx
    obtain ⟨k, _, rfl⟩ := hx
    exact Real.exp_pos _
  · intro h
    have := congrArg List.length h
    simp at this

theorem gaussSmoothAt_replicate (n : ℕ) (c sigma : ℝ) (hn : 0 < n) (j : ℕ) :
    gaussSmoothAt (List.replicate n c) sigma j = c := by
  unfold gaussSmoothAt
  have h1 : ((List.range (2 * gaussRadius sigma + 1)).map fun k =>
      gaussWeight sigma (gaussRadius sigma) k / gaussKernelSum sigma *
        (List.replicate n c).getD
          (reflectIdx (List.replicate n c).length ((j : ℤ) + (k : ℤ) - (gaussRadius sigma : ℤ)))
          0).sum
      = ((List.range (2 * gaussRadius sigma + 1)).map fun k =>
        gaussWeight sigma (gaussRadius sigma) k / gaussKernelSum sigma * c).sum := by
    congr 1
    apply List.map_congr_left
    intro k _
    congr 1
    rw [List.getD_eq_getElem _ _ (by simpa using reflectIdx_lt n _ hn)]
    simp
  rw [h1]
  have h2 : ((List.range (2 * gaussRadius sigma + 1)).map fun k =>
      gaussWeight sigma (gaussRadius sigma) k / gaussKernelSum sigma * c).sum
      = (((List.range (2 * gaussRadius sigma + 1)).map fun k =>
          gaussWeight sigma (gaussRadius sigma) k).sum / gaussKernelSum sigma) * c := by
    rw [List.sum_map_mul_right]
    congr 1
    simp only [div_eq_mul_inv]
    rw [List.sum_map_mul_right]
  rw [h2, ← gaussKernelSum, div_self (ne_of_gt (gaussKernelSum_pos sigma)), one_mul]

theorem gaussian_filter1d_replicate (n : ℕ) (c sigma : ℝ) :
    gaussian_filter1d (List.replicate n c) sigma = List.replicate n c := by
  rcases Nat.eq_zero_or_pos n with h | h
  · subst h; simp [gaussian_filter1d]
  · unfold gaussian_filter1d
    rw [List.length_replicate]
    have : (List.range n).map (gaussSmoothAt (List.replicate n c) sigma)
        = (List.range n).map (fun _ => c) := by
      apply List.map_congr_left
      intro j _
      exact gaussSmoothAt_replicate n c sigma h j
    rw [this, List.map_const', List.length_range]

theorem midi_to_hz_semitone (c : ℝ) (hc : 0 < c) :
    midi_to_hz (hz_to_midi c + 1) = c * (2 : ℝ) ^ ((1 : ℝ) / 12) := by
  unfold midi_to_hz hz_to_midi
  have h1 : (12 * Real.logb 2 (c / 440) + 69 + 1 - 69) / 12
      = Real.logb 2 (c / 440) + 1 / 12 := by ring
  rw [h1, Real.rpow_add (by norm_num),
    Real.rpow_logb (by norm_num) (by norm_num) (by positivity)]
  field_simp

theorem one_lt_twelfth_root : 1 < (2 : ℝ) ^ ((1 : ℝ) / 12) := by
  rw [Real.one_lt_rpow_iff_of_pos (by norm_num)]
  left
  constructor <;> norm_num

theorem twelfth_root_le_two : (2 : ℝ) ^ ((1 : ℝ) / 12) ≤ 2 := by
  calc (2 : ℝ) ^ ((1 : ℝ) / 12) ≤ (2 : ℝ) ^ (1 : ℝ) :=
        Real.rpow_le_rpow_of_exponent_le (by norm_num) (by norm_num)
    _ = 2 := Real.rpow_one 2

theorem max_freq_deviation_eq (mve c : ℝ) (hc : 0 < c) :
    max_freq_deviation mve c = c * ((2 : ℝ) ^ ((1 : ℝ) / 12) - 1) * (mve / 100) := by
  rw [max_freq_deviation, midi_to_hz_semitone c hc]
  ring

theorem max_freq_deviation_pos (mve c : ℝ) (hc : 0 < c) (hm : 0 < mve) :
    0 < max_freq_deviation mve c := by
  rw [max_freq_deviation_eq mve c hc]
  have h := one_lt_twelfth_root
  have h2 : 0 < (2 : ℝ) ^ ((1 : ℝ) / 12) - 1 := by linarith
  positivity

theorem max_freq_deviation_le (mve c : ℝ) (hc : 0 < c) (hm : 0 ≤ mve) :
    max_freq_deviation mve c ≤ c * (mve / 100) := by
  rw [max_freq_deviation_eq mve c hc]
  have h := twelfth_root_le_two
  have h2 : (2 : ℝ) ^ ((1 : ℝ) / 12) - 1 ≤ 1 := by linarith
  have h3 : c * ((2 : ℝ) ^ ((1 : ℝ) / 12) - 1) ≤ c * 1 :=
    mul_le_mul_of_nonneg_left h2 (le_of_lt hc)
  have h4 : 0 ≤ mve / 100 := by positivity
  calc c * ((2 : ℝ) ^ ((1 : ℝ) / 12) - 1) * (mve / 100)
      ≤ c * 1 * (mve / 100) := mul_le_mul_of_nonneg_right h3 h4
    _ = c * (mve / 100) := by ring

/-! ### Behaviour of the termination checks on constant candidates -/

theorem raw_check_replicate_false (mve c : ℝ) (k : ℕ) (hk : k ≠ 0) (hc : 0 < c)
    (hm : 0 < mve) : ¬ raw_check mve (List.replicate k c) := by
  rw [raw_check]
  rintro ⟨p, hp, hgt⟩
  rw [List.eq_of_mem_replicate hp, mean_replicate k c hk] at hgt
  simp only [sub_self, abs_zero, gt_iff_lt] at hgt
  exact absurd hgt (not_lt.mpr (le_of_lt (max_freq_deviation_pos mve c hc hm)))

theorem smooth_check_replicate_false (mve mvi c sigma : ℝ) (k : ℕ) (hk : k ≠ 0)
    (hc : 0 < c) (hm : 0 < mve) (hv : 0 ≤ mvi) :
    ¬ smooth_check mve mvi (List.replicate k c) sigma := by
  rw [smooth_check]
  rintro ⟨p, hp, hgt⟩
  rw [gaussian_filter1d_replicate] at hp
  rw [List.eq_of_mem_replicate hp, mean_replicate k c hk] at hgt
  simp only [sub_self, abs_zero, gt_iff_lt] at hgt
  have h1 := max_freq_deviation_pos mve c hc hm
  have h2 : 0 ≤ max_freq_deviation mve c * mvi := mul_nonneg (le_of_lt h1) hv
  linarith

/-! ### Step lemmas for the segmentation loop -/

theorem guess_step_zero (mve mvi mel sr : ℝ) (pitch : List ℝ) (st : List (ℕ × ℕ) × ℕ)
    (i : ℕ) (h : pitch.getD i 0 = 0) :
    guess_step mve mvi mel pitch sr st i =
      (if (i : ℝ) - (st.2 : ℝ) > mel * sr then st.1 ++ [(st.2, i)] else st.1, i) := by
  simp only [guess_step]
  rw [h, if_pos (rfl : (0 : ℝ) = 0)]
  simp

theorem guess_step_const (mve mvi mel sr : ℝ) (pitch : List ℝ) (st : List (ℕ × ℕ) × ℕ)
    (i k : ℕ) (c : ℝ) (hk : k ≠ 0) (hc : 0 < c) (hm : 0 < mve) (hv : 0 ≤ mvi)
    (hslice : (pitch.drop st.2).take (i - st.2) ++ [pitch.getD i 0] = List.replicate k c)
    (hlast : i ≠ pitch.length - 1) :
    guess_step mve mvi mel pitch sr st i = st := by
  have hcur : pitch.getD i 0 = c :=
    List.eq_of_mem_replicate
      (hslice ▸ List.mem_append_right _ (List.mem_singleton_self _))
  simp only [guess_step]
  rw [hslice]
  rw [if_neg (show ¬pitch.getD i 0 = 0 by rw [hcur]; exact ne_of_gt hc),
    if_neg (raw_check_replicate_false mve c k hk hc hm),
    if_neg (smooth_check_replicate_false mve mvi c _ k hk hc hm hv),
    if_neg hlast]
  simp

theorem guess_step_const_last (mve mvi mel sr : ℝ) (pitch : List ℝ)
    (st : List (ℕ × ℕ) × ℕ) (i k : ℕ) (c : ℝ) (hk : k ≠ 0) (hc : 0 < c) (hm : 0 < mve)
    (hv : 0 ≤ mvi)
    (hslice : (pitch.drop st.2).take (i - st.2) ++ [pitch.getD i 0] = List.replicate k c)
    (hlast : i = pitch.length - 1) :
    guess_step mve mvi mel pitch sr st i =
      (if (i : ℝ) - (st.2 : ℝ) > mel * sr then st.1 ++ [(st.2, i)] else st.1, i) := by
  have hcur : pitch.getD i 0 = c :=
    List.eq_of_mem_replicate
      (hslice ▸ List.mem_append_right _ (List.mem_singleton_self _))
  simp only [guess_step]
  rw [hslice]
  rw [if_neg (show ¬pitch.getD i 0 = 0 by rw [hcur]; exact ne_of_gt hc),
    if_neg (raw_check_replicate_false mve c k hk hc hm),
    if_neg (smooth_check_replicate_false mve mvi c _ k hk hc hm hv),
    if_pos hlast]
  simp

theorem guess_step_raw_true (mve mvi mel sr : ℝ) (pitch : List ℝ)
    (st : List (ℕ × ℕ) × ℕ) (i : ℕ) (hcur : pitch.getD i 0 ≠ 0)
    (hraw : raw_check mve ((pitch.drop st.2).take (i - st.2) ++ [pitch.getD i 0])) :
    guess_step mve mvi mel pitch sr st i =
      (if (i : ℝ) - (st.2 : ℝ) > mel * sr then st.1 ++ [(st.2, i)] else st.1, i) := by
  simp only [guess_step]
  rw [if_neg hcur, if_pos hraw]
  simp

/-! ### The octave-jump segmentation example -/

theorem mean_c3_candidate : mean [(220 : ℝ), 220, 220, 440] = 275 := by
  norm_num [mean]

theorem raw_check_c3 : raw_check 10 [(220 : ℝ), 220, 220, 440] := by
  refine ⟨220, by simp, ?_⟩
  rw [mean_c3_candidate]
  have hle := max_freq_deviation_le 10 275 (by norm_num) (by norm_num)
  have habs : |(220 : ℝ) - 275| = 55 := by
    rw [abs_of_nonpos (by norm_num)]
    norm_num
  rw [habs]
  linarith

theorem guess_events_c3 :
    guess_events 10 (1 / 2) (1 / 2) contourC3 3 = [⟨0, 3⟩, ⟨3, 5⟩] := by
  have h0 : guess_step 10 (1 / 2) (1 / 2) contourC3 3 ([], 0) 0 = ([], 0) :=
    guess_step_const 10 (1 / 2) (1 / 2) 3 contourC3 ([], 0) 0 1 220 (by decide)
      (by norm_num) (by norm_num) (by norm_num) rfl (by decide)
  have h1 : guess_step 10 (1 / 2) (1 / 2) contourC3 3 ([], 0) 1 = ([], 0) :=
    guess_step_const 10 (1 / 2) (1 / 2) 3 contourC3 ([], 0) 1 2 220 (by decide)
      (by norm_num) (by norm_num) (by norm_num) rfl (by decide)
  have h2 : guess_step 10 (1 / 2) (1 / 2) contourC3 3 ([], 0) 2 = ([], 0) :=
    guess_step_const 10 (1 / 2) (1 / 2) 3 contourC3 ([], 0) 2 3 220 (by decide)
      (by norm_num) (by norm_num) (by norm_num) rfl (by decide)
  have h3 : guess_step 10 (1 / 2) (1 / 2) contourC3 3 ([], 0) 3 = ([(0, 3)], 3) := by
    rw [guess_step_raw_true 10 (1 / 2) (1 / 2) 3 contourC3 ([], 0) 3
      (by norm_num : (440 : ℝ) ≠ 0) raw_check_c3]
    norm_num
  have h4 : guess_step 10 (1 / 2) (1 / 2) contourC3 3 ([(0, 3)], 3) 4 = ([(0, 3)], 3) :=
    guess_step_const 10 (1 / 2) (1 / 2) 3 contourC3 ([(0, 3)], 3) 4 2 440 (by decide)
      (by norm_num) (by norm_num) (by norm_num) rfl (by decide)
  have h5 : guess_step 10 (1 / 2) (1 / 2) contourC3 3 ([(0, 3)], 3) 5
      = ([(0, 3), (3, 5)], 5) := by
    rw [guess_step_const_last 10 (1 / 2) (1 / 2) 3 contourC3 ([(0, 3)], 3) 5 3 440
      (by decide) (by norm_num) (by norm_num) (by norm_num) rfl (by decide)]
    norm_num
  rw [guess_events]
  rw [show List.range contourC3.length = [0, 1, 2, 3, 4, 5] from rfl]
  rw [List.foldl_cons, h0, List.foldl_cons, h1, List.foldl_cons, h2, List.foldl_cons, h3,
    List.foldl_cons, h4, List.foldl_cons, h5, List.foldl_nil]
  rfl

/-! ### The segmentation loop invariant -/

theorem guess_step_cases (mve mvi mel sr : ℝ) (pitch : List ℝ) (st : List (ℕ × ℕ) × ℕ)
    (n : ℕ) :
    guess_step mve mvi mel pitch sr st n = st ∨
    guess_step mve mvi mel pitch sr st n = (st.1, n) ∨
    ((n : ℝ) - (st.2 : ℝ) > mel * sr ∧
      guess_step mve mvi mel pitch sr st n = (st.1 ++ [(st.2, n)], n)) := by
  simp only [guess_step]
  repeat' split
  all_goals
    first
      | exact Or.inl rfl
      | exact Or.inr (Or.inl rfl)
      | (rename_i h; exact Or.inr (Or.inr ⟨h, rfl⟩))

theorem guess_step_inv (mve mvi mel sr : ℝ) (pitch : List ℝ) (st : List (ℕ × ℕ) × ℕ)
    (n : ℕ) (h : StateInv mel sr n st) :
    StateInv mel sr (n + 1) (guess_step mve mvi mel pitch sr st n) := by
  obtain ⟨ha, hb, hc⟩ := h
  have hstn : st.2 ≤ n := by omega
  rcases guess_step_cases mve mvi mel sr pitch st n with heq | heq | ⟨hcommit, heq⟩
  · rw [heq]
    exact ⟨ha, hb, by omega⟩
  · rw [heq]
    refine ⟨?_, hb, Or.inr (by omega)⟩
    intro r hr
    obtain ⟨x, y, z⟩ := ha r hr
    exact ⟨x, le_trans y hstn, z⟩
  · rw [heq]
    refine ⟨?_, ?_, Or.inr (by omega)⟩
    · intro r hr
      rcases List.mem_append.mp hr with h' | h'
      · obtain ⟨x, y, z⟩ := ha r h'
        exact ⟨x, le_trans y hstn, z⟩
      · rw [List.mem_singleton] at h'
        subst h'
        exact ⟨hstn, Nat.le_refl _, hcommit⟩
    · rw [List.pairwise_append]
      refine ⟨hb, List.pairwise_singleton _ _, ?_⟩
      intro a hain b hbin
      rw [List.mem_singleton] at hbin
      subst hbin
      exact (ha a hain).2.1

theorem guess_fold_inv (mve mvi mel sr : ℝ) (pitch : List ℝ) (n : ℕ) :
    StateInv mel sr n ((List.range n).foldl (guess_step mve mvi mel pitch sr) ([], 0)) := by
  induction n with
  | zero => exact ⟨by simp, List.Pairwise.nil, Or.inl rfl⟩
  | succ n ih =>
    rw [List.range_succ, List.foldl_append, List.foldl_cons, List.foldl_nil]
    exact guess_step_inv mve mvi mel sr pitch _ n ih

/-! ### All-zero contours -/

theorem guess_fold_zero (mve mvi mel sr : ℝ) (pitch : List ℝ)
    (hz : ∀ p ∈ pitch, p = 0) (hthr : 1 ≤ mel * sr) :
    ∀ n, n ≤ pitch.length →
      (List.range n).foldl (guess_step mve mvi mel pitch sr) ([], 0) = ([], n - 1) := by
  intro n
  induction n with
  | zero => intro _; rfl
  | succ n ih =>
    intro hle
    have hn : n < pitch.length := by omega
    have hget : pitch.getD n 0 = 0 := by
      rw [List.getD_eq_getElem _ _ hn]
      exact hz _ (List.getElem_mem _)
    rw [List.range_succ, List.foldl_append, List.foldl_cons, List.foldl_nil, ih (by omega),
      guess_step_zero mve mvi mel sr pitch ([], n - 1) n hget]
    have hcf : ¬((n : ℝ) - ((n - 1 : ℕ) : ℝ) > mel * sr) := by
      rcases Nat.eq_zero_or_pos n with h0 | h0
      · subst h0
        simp
        linarith
      · rw [Nat.cast_sub h0]
        push_cast
        linarith
    rw [if_neg hcf]
    simp

theorem guess_events_all_zero (mve mvi mel sr : ℝ) (pitch : List ℝ)
    (hz : ∀ p ∈ pitch, p = 0) (hthr : 1 ≤ mel * sr) :
    guess_events mve mvi mel pitch sr = [] := by
  rw [guess_events,
    guess_fold_zero mve mvi mel sr pitch hz hthr pitch.length (Nat.le_refl _)]
  rfl

/-! ### Claim theorems: the event segmenter -/

/-- C3 (counterexample): on the contour `[220,220,220,440,440,440]` with
`pitch_sr = 3`, `max_vibrato_extent = 10`, `max_vibrato_inaccuracy = 0.5`,
`min_event_length = 0.5`, the segmenter does *not* return `[0,3)` and
`[3,6)`: the final sample (index 5) triggers termination and is excluded
from the committed range. -/
theorem c3_counterexample :
    guess_events 10 (1 / 2) (1 / 2) contourC3 3 ≠ [⟨0, 3⟩, ⟨3, 6⟩] := by
  rw [guess_events_c3]
  decide

/-- C3 (amended): on the contour `[220,220,220,440,440,440]` with
`pitch_sr = 3`, `max_vibrato_extent = 10`, `max_vibrato_inaccuracy = 0.5`,
`min_event_length = 0.5`, the segmenter returns exactly two events,
`[0,3)` and `[3,5)` — the octave jump at sample 3 splits the contour, and
the last sample, which triggers the final termination, is excluded. -/
theorem c3_two_events :
    guess_events 10 (1 / 2) (1 / 2) contourC3 3 = [⟨0, 3⟩, ⟨3, 5⟩] :=
  guess_events_c3

theorem guess_events_zero_pair :
    guess_events 40 (1 / 2) (1 / 10) [0, 0] 3 = [⟨0, 1⟩] := by
  have h0 : guess_step 40 (1 / 2) (1 / 10) [0, 0] 3 ([], 0) 0 = ([], 0) := by
    rw [guess_step_zero 40 (1 / 2) (1 / 10) 3 [0, 0] ([], 0) 0 rfl]
    norm_num
  have h1 : guess_step 40 (1 / 2) (1 / 10) [0, 0] 3 ([], 0) 1 = ([(0, 1)], 1) := by
    rw [guess_step_zero 40 (1 / 2) (1 / 10) 3 [0, 0] ([], 0) 1 rfl]
    norm_num
  rw [guess_events, show List.range (List.length ([0, 0] : List ℝ)) = [0, 1] from rfl,
    List.foldl_cons, h0, List.foldl_cons, h1, List.foldl_nil]
  rfl

/-- C4 (counterexample): an all-zero contour does *not* always produce an
empty event list: with `min_event_length * pitch_sr = 0.3 < 1` (the
defaults `min_event_length = 0.1` at `pitch_sr = 3`), the contour `[0,0]`
commits the length-1 range `[0,1)` as an event. -/
theorem c4_counterexample :
    guess_events 40 (1 / 2) (1 / 10) [0, 0] 3 ≠ [] := by
  rw [guess_events_zero_pair]
  simp

/-- C4 (amended): the empty contour always yields an empty event list, and
an all-zero contour yields an empty event list whenever
`min_event_length * pitch_sr ≥ 1` (so that the length-1 candidate ranges
between consecutive zero samples are discarded). -/
theorem c4_zero_contour_empty (mve mvi mel sr : ℝ) :
    guess_events mve mvi mel [] sr = [] ∧
    ∀ pitch : List ℝ, (∀ p ∈ pitch, p = 0) → 1 ≤ mel * sr →
      guess_events mve mvi mel pitch sr = [] :=
  ⟨rfl, fun pitch hz hthr => guess_events_all_zero mve mvi mel sr pitch hz hthr⟩

/-- C4 (witness): instantiating the amended claim at the all-zero contour
`[0,0]` with `min_event_length = 1`, `pitch_sr = 1`. -/
theorem c4_zero_contour_empty_witness :
    guess_events 40 (1 / 2) 1 ([] : List ℝ) 1 = [] ∧
    guess_events 40 (1 / 2) 1 [(0 : ℝ), 0] 1 = [] := by
  refine ⟨(c4_zero_contour_empty 40 (1 / 2) 1 1).1, ?_⟩
  exact (c4_zero_contour_empty 40 (1 / 2) 1 1).2 [0, 0] (by
    intro p hp
    simp at hp
    exact hp) (by norm_num)

/-- C5: for every pitch contour and every parameter setting, the event
list returned by the segmenter is chained (each event ends no later than
the next starts, hence the ranges are pairwise non-overlapping), sorted by
`start`, and every event satisfies
`end - start > min_event_length * pitch_sr`. -/
theorem c5_events_sorted_disjoint_min_length (mve mvi mel sr : ℝ) (pitch : List ℝ) :
    (guess_events mve mvi mel pitch sr).Pairwise (fun a b => a.«end» ≤ b.start) ∧
    (guess_events mve mvi mel pitch sr).Pairwise (fun a b => a.start ≤ b.start) ∧
    ∀ ev ∈ guess_events mve mvi mel pitch sr,
      ev.start ≤ ev.«end» ∧ (ev.«end» : ℝ) - (ev.start : ℝ) > mel * sr := by
  obtain ⟨ha, hb, -⟩ := guess_fold_inv mve mvi mel sr pitch pitch.length
  refine ⟨?_, ?_, ?_⟩
  · rw [guess_events, List.pairwise_map]
    exact hb
  · rw [guess_events, List.pairwise_map]
    refine List.Pairwise.imp_of_mem ?_ hb
    intro a b hain hbin hab
    exact le_trans (ha a hain).1 hab
  · intro ev hev
    simp only [guess_events, List.mem_map] at hev
    obtain ⟨r, hr, rfl⟩ := hev
    obtain ⟨x, y, z⟩ := ha r hr
    exact ⟨x, z⟩

/-- C10: for every non-empty contour, every event returned by the
segmenter satisfies `end ≤ length - 1`: the sample whose processing
triggered the termination is never part of the committed range, so the
last sample of the contour is never inside any event. -/
theorem c10_events_exclude_last_sample (mve mvi mel sr : ℝ) (pitch : List ℝ)
    (h : pitch ≠ []) :
    ∀ ev ∈ guess_events mve mvi mel pitch sr,
      ev.«end» ≤ pitch.length - 1 ∧
      ¬(ev.start ≤ pitch.length - 1 ∧ pitch.length - 1 < ev.«end») := by
  obtain ⟨ha, -, hc⟩ := guess_fold_inv mve mvi mel sr pitch pitch.length
  have hlen : 0 < pitch.length := List.length_pos.mpr h
  intro ev hev
  simp only [guess_events, List.mem_map] at hev
  obtain ⟨r, hr, rfl⟩ := hev
  have h2 := (ha r hr).2.1
  have hend : (Event.mk r.1 r.2).«end» = r.2 := rfl
  rw [hend]
  have h3 : ((List.range pitch.length).foldl (guess_step mve mvi mel pitch sr) ([], 0)).2
      ≤ pitch.length - 1 := by omega
  refine ⟨le_trans h2 h3, ?_⟩
  rintro ⟨-, hlt⟩
  have := le_trans h2 h3
  omega

/-- C10 (witness): on the two-sample contour `[0,0]` (which produces the
event `[0,1)`), that event ends at sample `1 = length - 1` and the last
sample is not inside it. -/
theorem c10_events_exclude_last_sample_witness :
    (⟨0, 1⟩ : Event).«end» ≤ List.length [(0 : ℝ), 0] - 1 ∧
    ¬((⟨0, 1⟩ : Event).start ≤ List.length [(0 : ℝ), 0] - 1 ∧
      List.length [(0 : ℝ), 0] - 1 < (⟨0, 1⟩ : Event).«end») :=
  c10_events_exclude_last_sample 40 (1 / 2) (1 / 10) 3 [0, 0] (by simp) ⟨0, 1⟩
    (by rw [guess_events_zero_pair]; exact List.mem_singleton_self _)

/-! ### Evaluation of the cache pipeline under the concrete externals -/

theorem recalc_Ezero (a b : ℝ) :
    Cache.recalculate Ezero cfg0 ⟨[a, b], 1⟩ = Except.ok ([0, 0], 1, []) := by
  have hev : guess_events 40 (1 / 2) 2 [(0 : ℝ), 0] 1 = [] :=
    guess_events_all_zero 40 (1 / 2) 2 1 [0, 0]
      (by intro p hp; simp at hp; exact hp) (by norm_num)
  simp only [Cache.recalculate, Cache.guess_pitch_yaapt, Ezero, cfg0]
  rw [if_pos trivial]
  norm_num
  rw [hev]

theorem apply_Ezero (pc : PitchChange) (hpa : pc.algorithm = "tdpsola")
    (hnp : pc.needs_pitch = true) (a b : ℝ) (p : List ℝ) (sr : ℝ) (evs : List Event) :
    Cache.apply Ezero cfg0 ⟨⟨[a, b], 1⟩, p, sr, evs⟩ pc
      = Except.ok ⟨⟨[a + 1, b + 1], 1⟩, [0, 0], 1, []⟩ := by
  simp only [Cache.apply, hnp, if_true, PitchChange.apply, hpa]
  rw [recalc_Ezero a b]
  simp only [Ezero, Except.bind, List.map]
  rfl

theorem esig_init_Ezero :
    Esig.init Ezero asig0 "yaapt" 40 (1 / 2) 2 = Except.ok esig0 := by
  simp only [Esig.init, Cache.init, asig0]
  rw [show (⟨"yaapt", 40, 1 / 2, 2⟩ : Cfg) = cfg0 from rfl, recalc_Ezero 0 0]
  rfl

theorem change_pitch_Ezero (s t : ℤ) (f : ℝ) :
    Esig.change_pitch Ezero esig0 s t f "tdpsola"
      = Except.ok { esig0 with edits := [⟨s, t, f, "tdpsola", true⟩], cache := cache1 } := by
  simp only [Esig.change_pitch, PitchChange.init]
  rw [if_pos trivial]
  have hcfg : esig0.cfg = cfg0 := rfl
  have hcache : esig0.cache = (⟨⟨[0, 0], 1⟩, [0, 0], 1, []⟩ : Cache) := rfl
  simp only [Bind.bind, Except.bind, hcfg, hcache]
  rw [apply_Ezero ⟨s, t, f, "tdpsola", true⟩ rfl rfl 0 0 [0, 0] 1 []]
  norm_num
  exact ⟨rfl, rfl⟩

theorem reapply_Ezero :
    Cache.reapply Ezero cfg0 [pc0] cache1 = Except.ok cache2 := by
  have hstep := apply_Ezero pc0 rfl rfl 1 1 [0, 0] 1 []
  simp only [Cache.reapply, List.foldlM, Bind.bind, Except.bind]
  rw [show ({ cache1 with asig := ⟨cache1.asig.sig, cache1.asig.sr⟩, pitch := cache1.pitch }
      : Cache) = (⟨⟨[1, 1], 1⟩, [0, 0], 1, []⟩ : Cache) from rfl]
  rw [hstep]
  norm_num
  rfl

theorem reapply_from_original_Ezero :
    Cache.reapply_from_original Ezero cfg0 asig0 [pc0] cache1 = Except.ok cache1 := by
  have hstep := apply_Ezero pc0 rfl rfl 0 0 [0, 0] 1 []
  simp only [Cache.reapply_from_original, List.foldlM, Bind.bind, Except.bind]
  rw [show ({ cache1 with asig := ⟨asig0.sig, asig0.sr⟩, pitch := cache1.pitch }
      : Cache) = (⟨⟨[0, 0], 1⟩, [0, 0], 1, []⟩ : Cache) from rfl]
  rw [hstep]
  norm_num
  rfl

/-! ### Claim theorems: cache, replay, façade -/

/-- C1: `Cache.reapply` does not reset the working signal to a fresh copy
of the original signal — it copies the cache's *current* (already edited)
working signal (`self.asig`, not `self.esig.asig`), contradicting its own
docstring and comment.  On a concrete run (original signal `[0,0]`,
estimator constantly `[0,0]`, modifier adding 1 to every sample, one
`PitchChange(0,2,2.0)`): the incremental apply leaves the working signal
at `[1,1]`, but `reapply()` produces `[2,2]` — the edit is re-applied on
top of the edited signal — whereas replaying from the original (the
spec-modelled `Cache.reapply_from_original`) reproduces `[1,1]`. -/
theorem c1_reapply_reuses_edited_signal :
    Esig.init Ezero asig0 "yaapt" 40 (1 / 2) 2 = Except.ok esig0 ∧
    Esig.change_pitch Ezero esig0 0 2 2 "tdpsola" = Except.ok esig1 ∧
    esig1.cache.asig.sig = [1, 1] ∧
    Cache.reapply Ezero cfg0 esig1.edits esig1.cache = Except.ok cache2 ∧
    cache2.asig.sig = [2, 2] ∧
    Cache.reapply_from_original Ezero cfg0 esig1.asig esig1.edits esig1.cache
      = Except.ok cache1 ∧
    cache1.asig.sig = esig1.cache.asig.sig := by
  refine ⟨esig_init_Ezero, ?_, rfl, reapply_Ezero, rfl, reapply_from_original_Ezero, rfl⟩
  exact change_pitch_Ezero 0 2 2

/-- C2 (counterexample): `Esig.change_pitch` with `start = 5 > end = 2`
does not raise: it returns successfully and the working signal is replaced
by the modification routine's output (here `[0,0]` becomes `[1,1]`), so
the cache is not left unchanged and no `InvalidRange` error exists. -/
theorem c2_counterexample :
    Except.map (fun e => e.cache.asig.sig) (Esig.change_pitch Ezero esig0 5 2 1 "tdpsola")
      = Except.ok [1, 1] ∧
    esig0.cache.asig.sig = [0, 0] := by
  rw [change_pitch_Ezero 5 2 1]
  exact ⟨rfl, rfl⟩

theorem normSlice_of_le (n : ℕ) (a b : ℤ) (h0 : 0 ≤ a) (h1 : a ≤ b) :
    normSlice n a ≤ normSlice n b := by
  rw [normSlice, normSlice, if_neg (not_lt.mpr h0), if_neg (not_lt.mpr (le_trans h0 h1))]
  exact min_le_min (Int.toNat_le_toNat h1) (Nat.le_refl _)

theorem changed_pitch_empty_slice (pc : PitchChange) (pitch : List ℝ)
    (h0 : 0 ≤ pc.«end») (h1 : pc.«end» ≤ pc.start) :
    changed_pitch pc pitch = pitch := by
  rw [changed_pitch]
  have hse : normSlice pitch.length pc.«end» ≤ normSlice pitch.length pc.start :=
    normSlice_of_le pitch.length pc.«end» pc.start h0 h1
  have hall : ∀ i ∈ List.range pitch.length,
      (if normSlice pitch.length pc.start ≤ i ∧ i < normSlice pitch.length pc.«end» then
        pitch.getD i 0 * pc.shift_factor
      else pitch.getD i 0) = pitch.getD i 0 := by
    intro i _
    rw [if_neg]
    rintro ⟨hA, hB⟩
    omega
  rw [List.map_congr_left hall, range_map_getD]

/-- C2 (amended): `Esig.change_pitch` performs no range validation: with
`0 ≤ end ≤ start` (an inverted range) no `InvalidRange` is raised — the
`PitchChange` is constructed (only the algorithm name is validated),
appended to the log, and applied.  The slice is empty, so the target
contour handed to the modification routine *equals* the source contour,
but the working signal is still replaced by the routine's output and the
contour and events are recomputed. -/
theorem c2_change_pitch_no_range_check (E : Externals) (e : Esig) (s t : ℤ) (f : ℝ)
    (halg : e.algorithm = "yaapt") (h0 : 0 ≤ t) (h1 : t ≤ s) :
    Esig.change_pitch E e s t f "tdpsola" =
      Except.ok { e with
        edits := e.edits ++ [⟨s, t, f, "tdpsola", true⟩],
        cache := { e.cache with
          asig := ⟨E.modify e.cache.asig.sig e.cache.asig.sr
            (E.estimate e.cache.asig.sig e.cache.asig.sr)
            (E.estimate e.cache.asig.sig e.cache.asig.sr), e.cache.asig.sr⟩,
          pitch := E.estimate e.cache.asig.sig e.cache.asig.sr,
          pitch_sr := ((E.estimate e.cache.asig.sig e.cache.asig.sr).length : ℝ) /
            ((e.cache.asig.sig.length : ℝ) / e.cache.asig.sr),
          events := guess_events e.max_vibrato_extent e.max_vibrato_inaccuracy
            e.min_event_length (E.estimate e.cache.asig.sig e.cache.asig.sr)
            (((E.estimate e.cache.asig.sig e.cache.asig.sr).length : ℝ) /
              ((e.cache.asig.sig.length : ℝ) / e.cache.asig.sr)) } } := by
  simp only [Esig.change_pitch, PitchChange.init]
  rw [if_pos trivial]
  simp only [Bind.bind, Except.bind, Cache.apply, if_true, Cache.recalculate,
    Cache.guess_pitch_yaapt, Esig.cfg, halg, PitchChange.apply]
  rw [changed_pitch_empty_slice ⟨s, t, f, "tdpsola", true⟩
    (E.estimate e.cache.asig.sig e.cache.asig.sr) h0 h1]

/-- C2 (witness): the amended claim instantiated at the concrete scenario
(`start = 5 > end = 2`, constant estimator, modifier adding one). -/
theorem c2_change_pitch_no_range_check_witness :
    Esig.change_pitch Ezero esig0 5 2 1 "tdpsola" =
      Except.ok { esig0 with
        edits := esig0.edits ++ [⟨5, 2, 1, "tdpsola", true⟩],
        cache := { esig0.cache with
          asig := ⟨Ezero.modify esig0.cache.asig.sig esig0.cache.asig.sr
            (Ezero.estimate esig0.cache.asig.sig esig0.cache.asig.sr)
            (Ezero.estimate esig0.cache.asig.sig esig0.cache.asig.sr),
            esig0.cache.asig.sr⟩,
          pitch := Ezero.estimate esig0.cache.asig.sig esig0.cache.asig.sr,
          pitch_sr := ((Ezero.estimate esig0.cache.asig.sig esig0.cache.asig.sr).length : ℝ) /
            ((esig0.cache.asig.sig.length : ℝ) / esig0.cache.asig.sr),
          events := guess_events esig0.max_vibrato_extent esig0.max_vibrato_inaccuracy
            esig0.min_event_length (Ezero.estimate esig0.cache.asig.sig esig0.cache.asig.sr)
            (((Ezero.estimate esig0.cache.asig.sig esig0.cache.asig.sr).length : ℝ) /
              ((esig0.cache.asig.sig.length : ℝ) / esig0.cache.asig.sr)) } } :=
  c2_change_pitch_no_range_check Ezero esig0 5 2 1 rfl (by decide) (by decide)

theorem recalc_Ehead_zero :
    Cache.recalculate Ehead cfg0 ⟨[0, 0], 1⟩ = Except.ok ([0, 0], 1, []) := by
  have hev : guess_events 40 (1 / 2) 2 [(0 : ℝ), 0] 1 = [] :=
    guess_events_all_zero 40 (1 / 2) 2 1 [0, 0]
      (by intro p hp; simp at hp; exact hp) (by norm_num)
  simp only [Cache.recalculate, Cache.guess_pitch_yaapt, Ehead, cfg0]
  rw [if_pos trivial, if_pos (show List.headD [(0 : ℝ), 0] 0 = 0 from rfl)]
  norm_num
  rw [hev]

theorem recalc_Ehead_one :
    Cache.recalculate Ehead cfg0 ⟨[1, 1], 1⟩ = Except.ok ([0, 0, 0], 3 / 2, []) := by
  have hev : guess_events 40 (1 / 2) 2 [(0 : ℝ), 0, 0] (3 / 2) = [] :=
    guess_events_all_zero 40 (1 / 2) 2 (3 / 2) [0, 0, 0]
      (by intro p hp; simp at hp; exact hp) (by norm_num)
  simp only [Cache.recalculate, Cache.guess_pitch_yaapt, Ehead, cfg0]
  rw [if_pos trivial, if_neg (show ¬List.headD [(1 : ℝ), 1] 0 = 0 by norm_num)]
  norm_num
  rw [hev]

theorem apply_Ehead (pc : PitchChange) (hpa : pc.algorithm = "tdpsola")
    (hnp : pc.needs_pitch = true) (p : List ℝ) (sr : ℝ) (evs : List Event) :
    Cache.apply Ehead cfg0 ⟨⟨[0, 0], 1⟩, p, sr, evs⟩ pc
      = Except.ok ⟨⟨[0 + 1, 0 + 1], 1⟩, [0, 0], 1, []⟩ := by
  simp only [Cache.apply, hnp, if_true, PitchChange.apply, hpa]
  rw [recalc_Ehead_zero]
  simp only [Ehead, Except.bind, List.map]
  rfl

theorem apply_Ehead_cache0 :
    Cache.apply Ehead cfg0 cache0 pc0 = Except.ok cache1 := by
  rw [show cache0 = (⟨⟨[0, 0], 1⟩, [0, 0], 1, []⟩ : Cache) from rfl,
    apply_Ehead pc0 rfl rfl [0, 0] 1 []]
  norm_num [cache1]

/-- C6 (counterexample): after a pitch-dependent `Cache.apply`, the stored
contour does *not* reflect the post-edit working signal: with an estimator
whose output depends on the signal (`[0,0]` for a zero-headed signal,
`[0,0,0]` otherwise) and a modifier adding one, applying a `PitchChange`
to the zero cache leaves the contour `[0,0]` (estimated from the pre-edit
signal) while re-estimating from the post-edit signal `[1,1]` would give
`[0,0,0]` — the triple is not mutually consistent. -/
theorem c6_counterexample :
    Cache.apply Ehead cfg0 cache0 pc0 = Except.ok cache1 ∧
    ¬ consistent Ehead cfg0 cache1 := by
  refine ⟨apply_Ehead_cache0, ?_⟩
  rw [consistent]
  have hrec : Cache.recalculate Ehead cfg0 cache1.asig
      = Except.ok ([0, 0, 0], 3 / 2, []) := recalc_Ehead_one
  rw [hrec]
  intro h
  simp [cache1] at h

/-- C6 (amended): after every successful pitch-dependent `Cache.apply`,
the event list is exactly the one derived by the segmenter from the stored
contour and rate, and the stored `(contour, rate, events)` triple was
recomputed from the *pre-edit* working signal — not the post-edit one.
`Cache.update` alone restores full consistency: it leaves the working
signal unchanged and recomputes the triple from it.  (`Cache.reapply` is a
fold of `Cache.apply`, so its final state is that of its last `apply`.) -/
theorem c6_apply_update_consistency :
    (∀ (E : Externals) (cfg : Cfg) (c c' : Cache) (edit : PitchChange),
      edit.needs_pitch = true → Cache.apply E cfg c edit = Except.ok c' →
        c'.events = guess_events cfg.max_vibrato_extent cfg.max_vibrato_inaccuracy
          cfg.min_event_length c'.pitch c'.pitch_sr ∧
        Cache.recalculate E cfg c.asig = Except.ok (c'.pitch, c'.pitch_sr, c'.events)) ∧
    (∀ (E : Externals) (cfg : Cfg) (c c' : Cache),
      Cache.update E cfg c = Except.ok c' → c'.asig = c.asig ∧ consistent E cfg c') := by
  constructor
  · intro E cfg c c' edit hnp happ
    simp only [Cache.apply, hnp, if_true, Bind.bind, Except.bind] at happ
    cases hrec : Cache.recalculate E cfg c.asig with
    | error err =>
      rw [hrec] at happ
      simp at happ
    | ok tri =>
      obtain ⟨p, psr, ev⟩ := tri
      rw [hrec] at happ
      simp only [PitchChange.apply] at happ
      split at happ
      · cases happ
      · have hev : ev = guess_events cfg.max_vibrato_extent cfg.max_vibrato_inaccuracy
            cfg.min_event_length p psr := by
          simp only [Cache.recalculate] at hrec
          split at hrec
          · simp only [Except.ok.injEq, Prod.mk.injEq] at hrec
            obtain ⟨hp, hpsr, hev⟩ := hrec
            subst hp
            subst hpsr
            exact hev.symm
          · cases hrec
        injection happ with happ'
        subst happ'
        exact ⟨hev, rfl⟩
  · intro E cfg c c' hupd
    simp only [Cache.update, Bind.bind, Except.bind] at hupd
    cases hrec : Cache.recalculate E cfg c.asig with
    | error err =>
      rw [hrec] at hupd
      simp at hupd
    | ok tri =>
      obtain ⟨p, psr, ev⟩ := tri
      rw [hrec] at hupd
      simp only [Except.ok.injEq] at hupd
      subst hupd
      exact ⟨rfl, hrec⟩

theorem apply_Ezero_cache0 :
    Cache.apply Ezero cfg0 cache0 pc0 = Except.ok cache1 := by
  rw [show cache0 = (⟨⟨[0, 0], 1⟩, [0, 0], 1, []⟩ : Cache) from rfl,
    apply_Ezero pc0 rfl rfl 0 0 [0, 0] 1 []]
  norm_num [cache1]

theorem update_Ezero_cache0 :
    Cache.update Ezero cfg0 cache0 = Except.ok cache0 := by
  have hrec : Cache.recalculate Ezero cfg0 cache0.asig = Except.ok ([0, 0], 1, []) :=
    recalc_Ezero 0 0
  simp only [Cache.update, Bind.bind, Except.bind, hrec]
  rfl

/-- C6 (witness): the amended claim instantiated at the concrete zero
scenario — both the `apply` part (with `pc0`) and the `update` part. -/
theorem c6_apply_update_consistency_witness :
    (cache1.events = guess_events cfg0.max_vibrato_extent cfg0.max_vibrato_inaccuracy
      cfg0.min_event_length cache1.pitch cache1.pitch_sr ∧
     Cache.recalculate Ezero cfg0 cache0.asig
       = Except.ok (cache1.pitch, cache1.pitch_sr, cache1.events)) ∧
    (cache0.asig = cache0.asig ∧ consistent Ezero cfg0 cache0) :=
  ⟨c6_apply_update_consistency.1 Ezero cfg0 cache0 cache1 pc0 rfl apply_Ezero_cache0,
   c6_apply_update_consistency.2 Ezero cfg0 cache0 cache0 update_Ezero_cache0⟩

/-- C7: for every pitch-dependent edit, `Cache.apply` first recomputes the
pitch contour and events from the *pre-edit* working signal (`c.asig`),
and only then invokes the edit on the working signal with that freshly
computed contour: the final state's contour is the estimate of the
pre-edit signal, and the modification routine receives exactly that
contour (and the target derived from it). -/
theorem c7_apply_recomputes_pre_edit (E : Externals) (cfg : Cfg) (c : Cache)
    (edit : PitchChange) (hnp : edit.needs_pitch = true)
    (halg : cfg.algorithm = "yaapt") (hmod : edit.algorithm = "tdpsola") :
    Cache.apply E cfg c edit = Except.ok
      ⟨⟨E.modify c.asig.sig c.asig.sr (E.estimate c.asig.sig c.asig.sr)
          (changed_pitch edit (E.estimate c.asig.sig c.asig.sr)), c.asig.sr⟩,
        E.estimate c.asig.sig c.asig.sr,
        ((E.estimate c.asig.sig c.asig.sr).length : ℝ) /
          ((c.asig.sig.length : ℝ) / c.asig.sr),
        guess_events cfg.max_vibrato_extent cfg.max_vibrato_inaccuracy
          cfg.min_event_length (E.estimate c.asig.sig c.asig.sr)
          (((E.estimate c.asig.sig c.asig.sr).length : ℝ) /
            ((c.asig.sig.length : ℝ) / c.asig.sr))⟩ := by
  simp only [Cache.apply, hnp, if_true, Bind.bind, Except.bind, Cache.recalculate,
    Cache.guess_pitch_yaapt, halg, PitchChange.apply, hmod]

/-- C7 (witness): instantiated at the concrete zero scenario. -/
theorem c7_apply_recomputes_pre_edit_witness :
    Cache.apply Ezero cfg0 cache0 pc0 = Except.ok
      ⟨⟨Ezero.modify cache0.asig.sig cache0.asig.sr
          (Ezero.estimate cache0.asig.sig cache0.asig.sr)
          (changed_pitch pc0 (Ezero.estimate cache0.asig.sig cache0.asig.sr)),
          cache0.asig.sr⟩,
        Ezero.estimate cache0.asig.sig cache0.asig.sr,
        ((Ezero.estimate cache0.asig.sig cache0.asig.sr).length : ℝ) /
          ((cache0.asig.sig.length : ℝ) / cache0.asig.sr),
        guess_events cfg0.max_vibrato_extent cfg0.max_vibrato_inaccuracy
          cfg0.min_event_length (Ezero.estimate cache0.asig.sig cache0.asig.sr)
          (((Ezero.estimate cache0.asig.sig cache0.asig.sr).length : ℝ) /
            ((cache0.asig.sig.length : ℝ) / cache0.asig.sr))⟩ :=
  c7_apply_recomputes_pre_edit Ezero cfg0 cache0 pc0 rfl rfl rfl

/-- C8: for a `PitchChange` with `0 ≤ start ≤ end ≤ length(pitch)`,
`apply` invokes the modification routine with the input contour as source
pitch and as target the contour whose entries in `[start, end)` are
multiplied by `shift_factor` (all other entries unchanged), replacing the
signal's samples with the routine's output. -/
theorem c8_pitch_change_target (E : Externals) (pc : PitchChange) (asig : Asig)
    (pitch : List ℝ) (h0 : 0 ≤ pc.start) (h1 : pc.start ≤ pc.«end»)
    (h2 : pc.«end» ≤ (pitch.length : ℤ)) (halg : pc.algorithm = "tdpsola") :
    PitchChange.apply E pc asig pitch =
      Except.ok ⟨E.modify asig.sig asig.sr pitch (changed_pitch pc pitch), asig.sr⟩ ∧
    (changed_pitch pc pitch).length = pitch.length ∧
    ∀ i, i < pitch.length →
      (changed_pitch pc pitch).getD i 0 =
        if pc.start ≤ (i : ℤ) ∧ (i : ℤ) < pc.«end» then pitch.getD i 0 * pc.shift_factor
        else pitch.getD i 0 := by
  refine ⟨by rw [PitchChange.apply, if_pos halg], ?_, ?_⟩
  · rw [changed_pitch, List.length_map, List.length_range]
  · intro i hi
    have hget : (changed_pitch pc pitch).getD i 0 =
        (if normSlice pitch.length pc.start ≤ i ∧ i < normSlice pitch.length pc.«end» then
          pitch.getD i 0 * pc.shift_factor
        else pitch.getD i 0) := by
      rw [changed_pitch,
        List.getD_eq_getElem _ _ (by simpa using hi),
        List.getElem_map, List.getElem_range]
    rw [hget]
    have hs : (normSlice pitch.length pc.start : ℤ) = pc.start := by
      rw [normSlice, if_neg (not_lt.mpr h0)]
      have hle : pc.start.toNat ≤ pitch.length := by omega
      rw [min_eq_left hle]
      omega
    have he : (normSlice pitch.length pc.«end» : ℤ) = pc.«end» := by
      rw [normSlice, if_neg (not_lt.mpr (le_trans h0 h1))]
      have hle : pc.«end».toNat ≤ pitch.length := by omega
      rw [min_eq_left hle]
      omega
    by_cases hcond : pc.start ≤ (i : ℤ) ∧ (i : ℤ) < pc.«end»
    · rw [if_pos (show normSlice pitch.length pc.start ≤ i ∧
        i < normSlice pitch.length pc.«end» by omega), if_pos hcond]
    · rw [if_neg (show ¬(normSlice pitch.length pc.start ≤ i ∧
        i < normSlice pitch.length pc.«end») by omega), if_neg hcond]

/-- C8 (witness): on a constant 220 Hz contour of length 3 with
`start = 0`, `end = 3`, `shift_factor = 2`, the target contour is all
440 Hz, and (with a modifier that returns its target-pitch argument) the
routine is invoked with exactly that target over the full range. -/
theorem c8_pitch_change_target_witness :
    changed_pitch ⟨0, 3, 2, "tdpsola", true⟩ [(220 : ℝ), 220, 220] = [440, 440, 440] ∧
    PitchChange.apply Etarget ⟨0, 3, 2, "tdpsola", true⟩ ⟨[1, 2], 44100⟩
        [(220 : ℝ), 220, 220]
      = Except.ok ⟨changed_pitch ⟨0, 3, 2, "tdpsola", true⟩ [(220 : ℝ), 220, 220], 44100⟩ := by
  constructor
  · rw [changed_pitch,
      show List.range (List.length [(220 : ℝ), 220, 220]) = [0, 1, 2] from rfl]
    norm_num [normSlice, List.getD_cons_zero, List.getD_cons_succ]
  · exact (c8_pitch_change_target Etarget ⟨0, 3, 2, "tdpsola", true⟩ ⟨[1, 2], 44100⟩
      [(220 : ℝ), 220, 220] (by decide) (by decide) (by decide) rfl).1

/-- C9: for every algorithm name outside the recognised set, constructing
an `Esig` fails with the invalid-algorithm error before any pitch
estimation is attempted (the result is this error for *every* choice of
estimator, i.e. it does not depend on the external estimator at all), and
constructing a `PitchChange` with an unrecognised modification algorithm
fails at construction time, before any mutation of any signal or
contour (the constructor is pure and returns only the error). -/
theorem c9_invalid_algorithm (alg : String) :
    (∀ (E : Externals) (asig : Asig) (mve mvi mel : ℝ), alg ≠ "yaapt" →
      Esig.init E asig alg mve mvi mel = Except.error "Invalid algorithm") ∧
    (∀ (s t : ℤ) (f : ℝ), alg ≠ "tdpsola" →
      PitchChange.init s t f alg = Except.error "Invalid algorithm") := by
  constructor
  · intro E asig mve mvi mel h
    simp only [Esig.init, Cache.init, Cache.recalculate, Bind.bind, Except.bind]
    rw [if_neg h]
  · intro s t f h
    rw [PitchChange.init, if_neg h]

/-- C9 (witness): both constructors rejected at the unrecognised name
`"bogus"`. -/
theorem c9_invalid_algorithm_witness :
    Esig.init Ezero asig0 "bogus" 40 (1 / 2) 2 = Except.error "Invalid algorithm" ∧
    PitchChange.init 0 1 1 "bogus" = Except.error "Invalid algorithm" :=
  ⟨(c9_invalid_algorithm "bogus").1 Ezero asig0 40 (1 / 2) 2 (by decide),
   (c9_invalid_algorithm "bogus").2 0 1 1 (by decide)⟩
